import Mathlib

/-!
Verification development for the libtrace trace-processing core.

This file shallowly embeds the symbol-resolution layer
(`symbols/symbols_resolver.cc`), the state sink (`state/current_state.cc`),
the ETW parser front-end (`parser/etw/etw_parser.cc`) and the shared
payload decoders (`parser/etw/etw_raw_payload_decoder_utils.cc`), and
proves the spec's claims about them.

Machine integers are modelled as `Nat`; the `% 2^64` reduction is applied
exactly where the C++ performs a `uint64_t` addition that can wrap
(`base + size` interval checks).
-/

/-- Modulus of a 64-bit machine integer. -/
def U64MOD : Nat := 2 ^ 64

/-- `symbols::Image` (fields per `symbols/image.h` usage in
`state/current_state.cc` and the spec's data model: `size`, `checksum`,
`timestamp`, `filename`; the filename is a wide string, modelled as its
UTF-16 code-unit sequence). -/
structure Image where
  size : Nat
  checksum : Nat
  timestamp : Nat
  filename : List Nat
  deriving DecidableEq, Repr

/-- `symbols::Symbol` from `symbols/symbol.h`: a name, an offset relative to
the image base, and a size. -/
structure SymbolEntry where
  name : List Nat
  offset : Nat
  size : Nat
  deriving DecidableEq, Repr

/-- `std::map<base::Address, symbols::Image>`: association list whose keys
are kept strictly increasing (the `std::map` ordering invariant). -/
abbrev ImageMap := List (Nat × Image)

/-- The `std::map` ordering invariant: keys strictly increasing. -/
def ImageMapSorted (m : ImageMap) : Prop :=
  List.Pairwise (fun p q => p.1 < q.1) m

instance (m : ImageMap) : Decidable (ImageMapSorted m) := by
  unfold ImageMapSorted; infer_instance

/-- `pid_to_images_[pid][base_address] = image` on one pid's map:
insert-or-assign preserving the key order. -/
def mapInsert (m : ImageMap) (k : Nat) (v : Image) : ImageMap :=
  match m with
  | [] => [(k, v)]
  | (k', v') :: rest =>
    if k < k' then (k, v) :: (k', v') :: rest
    else if k = k' then (k, v) :: rest
    else (k', v') :: mapInsert rest k v

/-- `process_it->second.erase(base_address)`: remove the entry with the
given key, if any. -/
def mapErase (m : ImageMap) (k : Nat) : ImageMap :=
  match m with
  | [] => []
  | (k', v') :: rest =>
    if k = k' then rest else (k', v') :: mapErase rest k

/-- `std::unordered_map<base::Pid, Images> pid_to_images_`, as an
association list with unique pid keys. -/
abbrev PidToImages := List (Nat × ImageMap)

/-- Lookup of a pid bucket (`pid_to_images_.find(pid)`). -/
def pidFind (st : PidToImages) (pid : Nat) : Option ImageMap :=
  match st with
  | [] => none
  | (p, m) :: rest => if p = pid then some m else pidFind rest pid

/-- `SymbolsResolver::LoadImage`: `pid_to_images_[pid][base_address] = image`
(creates the pid bucket on first use). -/
def LoadImage (st : PidToImages) (pid base : Nat) (img : Image) : PidToImages :=
  match st with
  | [] => [(pid, mapInsert [] base img)]
  | (p, m) :: rest =>
    if p = pid then (p, mapInsert m base img) :: rest
    else (p, m) :: LoadImage rest pid base img

/-- `SymbolsResolver::UnloadImage`: erase the `(pid, base)` entry; tolerates
an absent pid (no bucket is created) and an absent base. -/
def UnloadImage (st : PidToImages) (pid base : Nat) : PidToImages :=
  match st with
  | [] => []
  | (p, m) :: rest =>
    if p = pid then (p, mapErase m base) :: rest
    else (p, m) :: UnloadImage rest pid base

/-- `process_images.upper_bound(address)` followed by the decrement in
`SymbolsResolver::FindImage`: on a key-sorted map this yields the entry
with the greatest key `≤ address`, or nothing when the iterator was at
`begin()` (every key exceeds the address). -/
def findLE (m : ImageMap) (a : Nat) : Option (Nat × Image) :=
  match m with
  | [] => none
  | (b, img) :: rest =>
    if a < b then none else some ((findLE rest a).getD (b, img))

/-- `SymbolsResolver::FindImage`: locate the pid bucket, take the
strict-upper-bound predecessor of the address, and keep it only when
`address < base + image.size` (a `uint64_t` addition, hence the `% 2^64`). -/
def FindImage (st : PidToImages) (pid a : Nat) : Option (Nat × Image) :=
  match pidFind st pid with
  | none => none
  | some m =>
    match findLE m a with
    | none => none
    | some (b, img) =>
      if (b + img.size) % U64MOD ≤ a then none else some (b, img)

/-- Every bucket of the state satisfies the `std::map` ordering invariant. -/
def StateSorted (st : PidToImages) : Prop :=
  ∀ p ∈ st, ImageMapSorted p.2

instance (st : PidToImages) : Decidable (StateSorted st) := by
  unfold StateSorted; infer_instance

/-- First-match association lookup on one pid's map (`Images::find`). -/
def mapFind (m : ImageMap) (k : Nat) : Option Image :=
  match m with
  | [] => none
  | (k', v') :: rest => if k = k' then some v' else mapFind rest k

/-- The entry `(base, img)` is currently live for `pid`. -/
def entryLive (st : PidToImages) (pid base : Nat) (img : Image) : Prop :=
  (pidFind st pid).bind (fun m => mapFind m base) = some img

instance (st : PidToImages) (pid base : Nat) (img : Image) :
    Decidable (entryLive st pid base img) := by
  unfold entryLive; infer_instance

/-! ### Characterization of the interval lookup -/

lemma findLE_eq_none_iff {m : ImageMap} {a : Nat} (h : ImageMapSorted m) :
    findLE m a = none ↔ ∀ p ∈ m, a < p.1 := by
  induction m with
  | nil => simp [findLE]
  | cons hd tl ih =>
    obtain ⟨b0, i0⟩ := hd
    rw [ImageMapSorted, List.pairwise_cons] at h
    by_cases hab : a < b0
    · simp only [findLE, if_pos hab]
      constructor
      · intro _ p hp
        rcases List.mem_cons.mp hp with heq | hmem
        · rw [heq]; exact hab
        · exact lt_trans hab (h.1 p hmem)
      · intro _; trivial
    · simp only [findLE, if_neg hab]
      constructor
      · intro hc; cases hc
      · intro hall
        exact absurd (hall (b0, i0) (List.mem_cons_self _ _)) hab

lemma findLE_eq_some_iff {m : ImageMap} {a b : Nat} {i : Image}
    (h : ImageMapSorted m) :
    findLE m a = some (b, i) ↔
      ((b, i) ∈ m ∧ b ≤ a ∧ ∀ p ∈ m, p.1 ≤ a → p.1 ≤ b) := by
  induction m generalizing b i with
  | nil => simp [findLE]
  | cons hd tl ih =>
    obtain ⟨b0, i0⟩ := hd
    rw [ImageMapSorted, List.pairwise_cons] at h
    have hh : ∀ q ∈ tl, b0 < q.1 := h.1
    have htl : ImageMapSorted tl := h.2
    by_cases hab : a < b0
    · simp only [findLE, if_pos hab]
      constructor
      · intro hc; cases hc
      · rintro ⟨hmem, hba, _⟩
        rcases List.mem_cons.mp hmem with heq | hmemtl
        · exfalso
          have : b = b0 := congrArg Prod.fst heq
          omega
        · exfalso
          have := hh _ hmemtl
          simp only at this
          omega
    · simp only [findLE, if_neg hab]
      push_neg at hab
      cases hrec : findLE tl a with
      | none =>
        have hnone := (findLE_eq_none_iff htl).mp hrec
        simp only [Option.getD_none]
        constructor
        · intro heq
          obtain ⟨rfl, rfl⟩ := Prod.mk.inj (Option.some.inj heq)
          refine ⟨List.mem_cons_self _ _, hab, ?_⟩
          intro p hp hpa
          rcases List.mem_cons.mp hp with hpeq | hptl
          · rw [hpeq]
          · exact absurd hpa (by have := hnone p hptl; omega)
        · rintro ⟨hmem, hba, hmax⟩
          rcases List.mem_cons.mp hmem with heq | hmemtl
          · rw [heq]
          · exfalso
            have := hnone _ hmemtl
            omega
      | some q =>
        obtain ⟨b', i'⟩ := q
        have hch' := @ih b' i' htl
        rw [hrec] at hch'
        have hq := hch'.mp rfl
        simp only [Option.getD_some]
        constructor
        · intro heq
          obtain ⟨rfl, rfl⟩ := Prod.mk.inj (Option.some.inj heq)
          refine ⟨List.mem_cons_of_mem _ hq.1, hq.2.1, ?_⟩
          intro p hp hpa
          rcases List.mem_cons.mp hp with hpeq | hptl
          · have hb0b : b0 < b' := hh _ hq.1
            rw [hpeq]; exact le_of_lt hb0b
          · exact hq.2.2 p hptl hpa
        · rintro ⟨hmem, hba, hmax⟩
          rcases List.mem_cons.mp hmem with heq | hmemtl
          · exfalso
            obtain ⟨rfl, rfl⟩ := Prod.mk.inj heq
            have hb0b : b < b' := hh _ hq.1
            have : b' ≤ b := hmax (b', i') (List.mem_cons_of_mem _ hq.1) hq.2.1
            omega
          · have hch := @ih b i htl
            rw [hrec] at hch
            have : some (b', i') = some (b, i) := by
              refine hch.mpr ⟨hmemtl, hba, ?_⟩
              intro p hp hpa
              exact hmax p (List.mem_cons_of_mem _ hp) hpa
            rw [this]

lemma mapFind_eq_some_iff {m : ImageMap} {k : Nat} {v : Image}
    (h : ImageMapSorted m) :
    mapFind m k = some v ↔ (k, v) ∈ m := by
  induction m with
  | nil => simp [mapFind]
  | cons hd tl ih =>
    obtain ⟨k', v'⟩ := hd
    rw [ImageMapSorted, List.pairwise_cons] at h
    by_cases hk : k = k'
    · subst hk
      rw [show mapFind ((k, v') :: tl) k = some v' from by
        simp [mapFind]]
      simp only [List.mem_cons]
      constructor
      · intro hv
        exact Or.inl (by rw [Option.some.inj hv])
      · intro hor
        rcases hor with heq | hmem
        · obtain ⟨-, rfl⟩ := Prod.mk.inj heq
          rfl
        · exfalso
          have := h.1 _ hmem
          simp only at this
          omega
    · rw [show mapFind ((k', v') :: tl) k = mapFind tl k from by
        simp [mapFind, hk]]
      rw [ih h.2]
      simp only [List.mem_cons]
      constructor
      · exact Or.inr
      · intro hor
        rcases hor with heq | hmem
        · exact absurd (congrArg Prod.fst heq) (by simpa using hk)
        · exact hmem

lemma pidFind_mem {st : PidToImages} {pid : Nat} {m : ImageMap}
    (h : pidFind st pid = some m) : (pid, m) ∈ st := by
  induction st with
  | nil => cases h
  | cons hd tl ih =>
    obtain ⟨p, m'⟩ := hd
    by_cases hp : p = pid
    · subst hp
      simp only [pidFind, if_pos rfl] at h
      rw [Option.some.inj h]
      exact List.mem_cons_self _ _
    · simp only [pidFind, if_neg hp] at h
      exact List.mem_cons_of_mem _ (ih h)

lemma mem_unique_of_sorted {m : ImageMap} {b : Nat} {i i' : Image}
    (h : ImageMapSorted m) (h1 : (b, i) ∈ m) (h2 : (b, i') ∈ m) : i = i' := by
  have e1 := (mapFind_eq_some_iff h).mpr h1
  have e2 := (mapFind_eq_some_iff h).mpr h2
  rw [e1] at e2
  exact Option.some.inj e2

/-- Declarative characterization of `SymbolsResolver::FindImage`: it returns
exactly the live entry with the greatest base not exceeding the address,
provided the address is below `base + size` (computed in `uint64_t`). -/
lemma findImage_eq_some_iff {st : PidToImages} {pid a b : Nat} {i : Image}
    (hst : StateSorted st) :
    FindImage st pid a = some (b, i) ↔
      (entryLive st pid b i ∧ b ≤ a ∧
        (∀ b' i', entryLive st pid b' i' → b' ≤ a → b' ≤ b) ∧
        a < (b + i.size) % U64MOD) := by
  cases hm : pidFind st pid with
  | none =>
    simp only [FindImage, hm, entryLive, Option.bind]
    constructor
    · intro hc; cases hc
    · rintro ⟨hc, -⟩; cases hc
  | some m =>
    have hms : ImageMapSorted m := hst _ (pidFind_mem hm)
    have hlive : ∀ b' (i' : Image),
        entryLive st pid b' i' ↔ (b', i') ∈ m := by
      intro b' i'
      rw [entryLive, hm]
      simp only [Option.bind]
      exact mapFind_eq_some_iff hms
    simp only [FindImage, hm]
    cases hf : findLE m a with
    | none =>
      have hnone := (findLE_eq_none_iff hms).mp hf
      constructor
      · intro hc; cases hc
      · rintro ⟨hl, hba, -, -⟩
        have := hnone _ ((hlive b i).mp hl)
        simp only at this
        omega
    | some q =>
      obtain ⟨b0, i0⟩ := q
      have hq := (findLE_eq_some_iff hms).mp hf
      by_cases hchk : (b0 + i0.size) % U64MOD ≤ a
      · simp only [if_pos hchk]
        constructor
        · intro hc; cases hc
        · rintro ⟨hl, hba, hmax, hlt⟩
          have hmem : (b, i) ∈ m := (hlive b i).mp hl
          have hb0b : b0 ≤ b := by
            have := hmax b0 i0 ((hlive b0 i0).mpr hq.1) hq.2.1
            exact this
          have hbb0 : b ≤ b0 := hq.2.2 _ hmem hba
          have hbeq : b = b0 := le_antisymm hbb0 hb0b
          subst hbeq
          have : i = i0 := mem_unique_of_sorted hms hmem hq.1
          subst this
          omega
      · simp only [if_neg hchk]
        constructor
        · intro heq
          obtain ⟨rfl, rfl⟩ := Prod.mk.inj (Option.some.inj heq)
          refine ⟨(hlive b0 i0).mpr hq.1, hq.2.1, ?_, by omega⟩
          intro b' i' hl' hba'
          exact hq.2.2 (b', i') ((hlive b' i').mp hl') hba'
        · rintro ⟨hl, hba, hmax, hlt⟩
          have hmem : (b, i) ∈ m := (hlive b i).mp hl
          have hb0b : b0 ≤ b := hmax b0 i0 ((hlive b0 i0).mpr hq.1) hq.2.1
          have hbb0 : b ≤ b0 := hq.2.2 _ hmem hba
          have hbeq : b0 = b := le_antisymm hb0b hbb0
          subst hbeq
          have : i0 = i := mem_unique_of_sorted hms hq.1 hmem
          rw [this]

lemma findImage_eq_none_iff {st : PidToImages} {pid a : Nat}
    (hst : StateSorted st) :
    FindImage st pid a = none ↔
      ∀ b i, entryLive st pid b i → b ≤ a →
        (∀ b' i', entryLive st pid b' i' → b' ≤ a → b' ≤ b) →
        (b + i.size) % U64MOD ≤ a := by
  constructor
  · intro hnone b i hl hba hmax
    by_contra hc
    push_neg at hc
    have := (findImage_eq_some_iff hst).mpr ⟨hl, hba, hmax, hc⟩
    rw [hnone] at this
    cases this
  · intro hall
    cases hfi : FindImage st pid a with
    | none => rfl
    | some q =>
      obtain ⟨b, i⟩ := q
      have hq := (findImage_eq_some_iff hst).mp hfi
      have := hall b i hq.1 hq.2.1 hq.2.2.1
      omega

/-! ### Preservation of the map ordering invariant -/

lemma mapInsert_mem {m : ImageMap} {k : Nat} {v : Image} {p : Nat × Image}
    (h : p ∈ mapInsert m k v) : p = (k, v) ∨ p ∈ m := by
  induction m with
  | nil =>
    simp only [mapInsert, List.mem_singleton] at h
    exact Or.inl h
  | cons hd tl ih =>
    obtain ⟨k', v'⟩ := hd
    by_cases h1 : k < k'
    · simp only [mapInsert, if_pos h1, List.mem_cons] at h
      rcases h with h | h | h
      · exact Or.inl h
      · exact Or.inr (List.mem_cons.mpr (Or.inl h))
      · exact Or.inr (List.mem_cons.mpr (Or.inr h))
    · by_cases h2 : k = k'
      · simp only [mapInsert, if_neg h1, if_pos h2, List.mem_cons] at h
        rcases h with h | h
        · exact Or.inl h
        · exact Or.inr (List.mem_cons.mpr (Or.inr h))
      · simp only [mapInsert, if_neg h1, if_neg h2, List.mem_cons] at h
        rcases h with h | h
        · exact Or.inr (List.mem_cons.mpr (Or.inl h))
        · rcases ih h with h' | h'
          · exact Or.inl h'
          · exact Or.inr (List.mem_cons.mpr (Or.inr h'))

lemma mapInsert_sorted {m : ImageMap} {k : Nat} {v : Image}
    (h : ImageMapSorted m) : ImageMapSorted (mapInsert m k v) := by
  induction m with
  | nil =>
    simp [mapInsert, ImageMapSorted]
  | cons hd tl ih =>
    obtain ⟨k', v'⟩ := hd
    rw [ImageMapSorted, List.pairwise_cons] at h
    by_cases h1 : k < k'
    · rw [show mapInsert ((k', v') :: tl) k v = (k, v) :: (k', v') :: tl from by
        simp [mapInsert, h1]]
      rw [ImageMapSorted, List.pairwise_cons]
      constructor
      · intro q hq
        rcases List.mem_cons.mp hq with heq | hmem
        · rw [heq]; exact h1
        · exact lt_trans h1 (h.1 q hmem)
      · rw [List.pairwise_cons]
        exact h
    · by_cases h2 : k = k'
      · rw [show mapInsert ((k', v') :: tl) k v = (k, v) :: tl from by
          simp [mapInsert, h1, h2]]
        rw [ImageMapSorted, List.pairwise_cons]
        subst h2
        exact ⟨h.1, h.2⟩
      · rw [show mapInsert ((k', v') :: tl) k v = (k', v') :: mapInsert tl k v
            from by simp [mapInsert, h1, h2]]
        rw [ImageMapSorted, List.pairwise_cons]
        constructor
        · intro q hq
          rcases mapInsert_mem hq with heq | hmem
          · rw [heq]; simp only; omega
          · exact h.1 q hmem
        · exact ih h.2

lemma mapErase_sublist (m : ImageMap) (k : Nat) : (mapErase m k).Sublist m := by
  induction m with
  | nil => simp [mapErase]
  | cons hd tl ih =>
    obtain ⟨k', v'⟩ := hd
    by_cases h : k = k'
    · rw [show mapErase ((k', v') :: tl) k = tl from by simp [mapErase, h]]
      exact List.sublist_cons_self _ _
    · rw [show mapErase ((k', v') :: tl) k = (k', v') :: mapErase tl k from by
        simp [mapErase, h]]
      exact List.Sublist.cons₂ _ (ih)

lemma mapErase_sorted {m : ImageMap} {k : Nat}
    (h : ImageMapSorted m) : ImageMapSorted (mapErase m k) :=
  List.Pairwise.sublist (mapErase_sublist m k) h

lemma LoadImage_sorted {st : PidToImages} {pid base : Nat} {img : Image}
    (h : StateSorted st) : StateSorted (LoadImage st pid base img) := by
  induction st with
  | nil =>
    intro p hp
    simp only [LoadImage, List.mem_singleton] at hp
    rw [hp]
    exact mapInsert_sorted (by simp [ImageMapSorted])
  | cons hd tl ih =>
    obtain ⟨p0, m0⟩ := hd
    have h0 : ImageMapSorted m0 := h _ (List.mem_cons_self _ _)
    have htl : StateSorted tl := fun q hq => h _ (List.mem_cons_of_mem _ hq)
    by_cases hp : p0 = pid
    · rw [show LoadImage ((p0, m0) :: tl) pid base img
          = (p0, mapInsert m0 base img) :: tl from by simp [LoadImage, hp]]
      intro q hq
      rcases List.mem_cons.mp hq with heq | hmem
      · rw [heq]; exact mapInsert_sorted h0
      · exact htl _ hmem
    · rw [show LoadImage ((p0, m0) :: tl) pid base img
          = (p0, m0) :: LoadImage tl pid base img from by simp [LoadImage, hp]]
      intro q hq
      rcases List.mem_cons.mp hq with heq | hmem
      · rw [heq]; exact h0
      · exact ih htl _ hmem

lemma UnloadImage_sorted {st : PidToImages} {pid base : Nat}
    (h : StateSorted st) : StateSorted (UnloadImage st pid base) := by
  induction st with
  | nil => intro p hp; cases hp
  | cons hd tl ih =>
    obtain ⟨p0, m0⟩ := hd
    have h0 : ImageMapSorted m0 := h _ (List.mem_cons_self _ _)
    have htl : StateSorted tl := fun q hq => h _ (List.mem_cons_of_mem _ hq)
    by_cases hp : p0 = pid
    · rw [show UnloadImage ((p0, m0) :: tl) pid base
          = (p0, mapErase m0 base) :: tl from by simp [UnloadImage, hp]]
      intro q hq
      rcases List.mem_cons.mp hq with heq | hmem
      · rw [heq]; exact mapErase_sorted h0
      · exact htl _ hmem
    · rw [show UnloadImage ((p0, m0) :: tl) pid base
          = (p0, m0) :: UnloadImage tl pid base from by simp [UnloadImage, hp]]
      intro q hq
      rcases List.mem_cons.mp hq with heq | hmem
      · rw [heq]; exact h0
      · exact ih htl _ hmem

/-- One call observed by the resolver: `LoadImage` or `UnloadImage`. -/
inductive TraceOp where
  | load (pid base : Nat) (img : Image)
  | unload (pid base : Nat)
  deriving DecidableEq, Repr

/-- Apply one call to the resolver state. -/
def applyOp (st : PidToImages) (op : TraceOp) : PidToImages :=
  match op with
  | TraceOp.load pid base img => LoadImage st pid base img
  | TraceOp.unload pid base => UnloadImage st pid base

/-- Resolver state after a sequence of `load_image` / `unload_image` calls
starting from the empty (freshly constructed) resolver. -/
def applyOps (ops : List TraceOp) : PidToImages :=
  ops.foldl applyOp []

lemma applyOp_sorted {st : PidToImages} {op : TraceOp}
    (h : StateSorted st) : StateSorted (applyOp st op) := by
  cases op with
  | load pid base img => exact LoadImage_sorted h
  | unload pid base => exact UnloadImage_sorted h

lemma applyOps_sorted (ops : List TraceOp) : StateSorted (applyOps ops) := by
  have hgen : ∀ (l : List TraceOp) (st : PidToImages),
      StateSorted st → StateSorted (l.foldl applyOp st) := by
    intro l
    induction l with
    | nil => intro st h; exact h
    | cons hd tl ih => intro st h; exact ih _ (applyOp_sorted h)
  exact hgen ops [] (by intro p hp; cases hp)

lemma entryLive_unique {st : PidToImages} {pid b : Nat} {i i' : Image}
    (h1 : entryLive st pid b i) (h2 : entryLive st pid b i') : i = i' := by
  rw [entryLive] at h1 h2
  rw [h1] at h2
  exact Option.some.inj h2

/-- C1: for every resolver state (with the `std::map` ordering invariant),
pid and address `a`, `FindImage` considers the live entry with the greatest
base `B ≤ a` in `pid`'s ordered map and returns it iff `a < B + size`
(`uint64_t` arithmetic); in particular, a lookup at exactly `B` returns the
image at `B`, at `B + size - 1` returns the image, and at `B + size` returns
absent (the boundary cases assuming a nonempty, non-wrapping interval and
that no other live base intrudes into the relevant range). -/
theorem claim_C1_find_image_greatest_base (st : PidToImages)
    (pid : Nat) (hst : StateSorted st) :
    (∀ a b i, FindImage st pid a = some (b, i) ↔
        (entryLive st pid b i ∧ b ≤ a ∧
          (∀ b' i', entryLive st pid b' i' → b' ≤ a → b' ≤ b) ∧
          a < (b + i.size) % U64MOD))
    ∧ (∀ B I, entryLive st pid B I → 0 < I.size → B + I.size < U64MOD →
        FindImage st pid B = some (B, I))
    ∧ (∀ B I, entryLive st pid B I → 0 < I.size → B + I.size < U64MOD →
        (∀ b' i', entryLive st pid b' i' → b' ≤ B ∨ B + I.size - 1 < b') →
        FindImage st pid (B + I.size - 1) = some (B, I))
    ∧ (∀ B I, entryLive st pid B I →
        (∀ b' i', entryLive st pid b' i' → b' ≤ B ∨ B + I.size < b') →
        FindImage st pid (B + I.size) = none) := by
  refine ⟨fun a b i => findImage_eq_some_iff hst, ?_, ?_, ?_⟩
  · intro B I hlive hpos hnw
    refine (findImage_eq_some_iff hst).mpr ⟨hlive, le_refl _, ?_, ?_⟩
    · intro b' i' hl' hba'
      exact hba'
    · rw [Nat.mod_eq_of_lt hnw]
      omega
  · intro B I hlive hpos hnw hsep
    refine (findImage_eq_some_iff hst).mpr ⟨hlive, by omega, ?_, ?_⟩
    · intro b' i' hl' hba'
      rcases hsep b' i' hl' with h | h
      · omega
      · omega
    · rw [Nat.mod_eq_of_lt hnw]
      omega
  · intro B I hlive hsep
    refine (findImage_eq_none_iff hst).mpr ?_
    intro b i hl hba hmax
    have hBb : B ≤ b := hmax B I hlive (by omega)
    rcases hsep b i hl with h | h
    · have hbB : b = B := le_antisymm h hBb
      subst hbB
      have hiI : i = I := entryLive_unique hl hlive
      subst hiI
      exact Nat.mod_le _ _
    · omega

/-- Image fixtures from `TEST(SymbolsResolver, FindImage)`. -/
def imageA : Image :=
  ⟨1000, 12, 34, [105, 109, 97, 103, 101, 95, 97, 46, 100, 108, 108]⟩

def imageB : Image :=
  ⟨2000, 56, 78, [105, 109, 97, 103, 101, 95, 98, 46, 100, 108, 108]⟩

def imageC : Image :=
  ⟨3000, 91, 23, [105, 109, 97, 103, 101, 95, 99, 46, 100, 108, 108]⟩

/-- Resolver state of `TEST(SymbolsResolver, FindImage)` after the three
`LoadImage` calls. -/
def testState : PidToImages :=
  applyOps [TraceOp.load 42 10000 imageA, TraceOp.load 42 20000 imageB,
            TraceOp.load 13 0 imageC]

/-- Witness for C1 at a concrete input: the lookup at exactly the base
`10000` returns `imageA`, via the claim theorem. -/
theorem claim_C1_witness :
    FindImage testState 42 10000 = some (10000, imageA) :=
  (claim_C1_find_image_greatest_base testState 42 (by decide)).2.1
    10000 imageA (by decide) (by decide) (by decide)

/-- Overlapping fixtures refuting C3 as stated. -/
def imgBig : Image := ⟨100, 1, 2, []⟩

def imgSmall : Image := ⟨5, 3, 4, []⟩

/-- A state with two overlapping intervals for pid 42: `[0, 100)` and
`[10, 15)`. -/
def overlapState : PidToImages :=
  applyOps [TraceOp.load 42 0 imgBig, TraceOp.load 42 10 imgSmall]

/-- C3 as stated is false: after the load sequence creating overlapping
intervals, the iff "an image is returned iff some currently-live entry at
base `B` satisfies `B ≤ a < B + size`" fails at pid 42, address 50. The
live entry at base 0 covers 50 (`0 ≤ 50 < 0 + 100`), yet `FindImage`
returns absent, because the greatest base `≤ 50` is the overlapping entry
at 10 whose interval `[10, 15)` does not cover 50. -/
theorem claim_C3_counterexample :
    ¬ ((FindImage overlapState 42 50).isSome = true ↔
        ∃ b i, entryLive overlapState 42 b i ∧ b ≤ 50 ∧ 50 < b + i.size) :=
  fun h =>
    absurd (h.mpr ⟨0, imgBig, by decide, by decide, by decide⟩) (by decide)

/-- C3 (amended): for all sequences of `load_image` / `unload_image` calls
(including ones creating overlapping intervals), `find_image(pid, a)`
returns an image iff the currently-live entry with the greatest base
`B ≤ a` satisfies `a < B + size` (`uint64_t` arithmetic). -/
theorem claim_C3_find_image_after_op_sequences (ops : List TraceOp)
    (pid a : Nat) :
    (FindImage (applyOps ops) pid a).isSome = true ↔
      ∃ b i, entryLive (applyOps ops) pid b i ∧ b ≤ a ∧
        (∀ b' i', entryLive (applyOps ops) pid b' i' → b' ≤ a → b' ≤ b) ∧
        a < (b + i.size) % U64MOD := by
  have hst := applyOps_sorted ops
  constructor
  · intro hs
    obtain ⟨q, hq⟩ := Option.isSome_iff_exists.mp hs
    obtain ⟨b, i⟩ := q
    exact ⟨b, i, (findImage_eq_some_iff hst).mp hq⟩
  · rintro ⟨b, i, hchar⟩
    rw [(findImage_eq_some_iff hst).mpr hchar]
    rfl

/-! ### Symbol resolution (`SymbolsResolver::ResolveSymbol`) -/

/-- `symbol_cache_`: per-image cached symbol tables, keyed by `Image`
equality (all four image fields). -/
abbrev SymbolCache := List (Image × List SymbolEntry)

/-- `symbol_cache_.find(image)`. -/
def cacheFind (c : SymbolCache) (img : Image) : Option (List SymbolEntry) :=
  match c with
  | [] => none
  | (im, tbl) :: rest => if im = img then some tbl else cacheFind rest img

/-- Modelled from the spec: the `Symbol` ordering used by the `std::sort`
call in `SymbolsResolver::GetImageSymbols` is not among the sources under
verification; the spec fixes the result as "sorted by `offset` ascending on
build" (4.6 step 2). Insertion step of that sort. -/
def insertByOffset (s : SymbolEntry) (l : List SymbolEntry) :
    List SymbolEntry :=
  match l with
  | [] => [s]
  | t :: rest =>
    if s.offset ≤ t.offset then s :: t :: rest else t :: insertByOffset s rest

/-- Modelled from the spec: sorting of the enumerated symbols by `offset`
ascending (`std::sort` in `SymbolsResolver::GetImageSymbols`). -/
def sortByOffset (l : List SymbolEntry) : List SymbolEntry :=
  match l with
  | [] => []
  | s :: rest => insertByOffset s (sortByOffset rest)

/-- `SymbolsResolver::GetImageSymbols`: return the cached table for the
image, or enumerate through the external collaborator
(`dbghelp_wrapper_.EnumerateSymbols`, a parameter here), sort by offset and
cache the result. -/
def GetImageSymbols (enum : Image → List SymbolEntry) (cache : SymbolCache)
    (img : Image) : List SymbolEntry × SymbolCache :=
  match cacheFind cache img with
  | some tbl => (tbl, cache)
  | none =>
    (sortByOffset (enum img), cache ++ [(img, sortByOffset (enum img))])

/-- `std::upper_bound` over the offset-sorted symbol vector with comparator
`SymbolOffsetComparison` (`offset < symbol.offset()`): index of the first
symbol whose offset exceeds the target (linear form; on sorted input this is
what the binary search computes). -/
def symUpperBound (tbl : List SymbolEntry) (offset : Nat) : Nat :=
  match tbl with
  | [] => 0
  | s :: rest => if offset < s.offset then 0 else symUpperBound rest offset + 1

/-- Full resolver state: the per-process image map and the symbol cache. -/
structure ResolverState where
  pidToImages : PidToImages
  cache : SymbolCache
  deriving Repr

/-- `SymbolsResolver::ResolveSymbol` (the `USE_DBGHELP` branch): find the
image containing the address, fetch or build its sorted symbol table, take
the strict-upper-bound predecessor of `offset = address - base`, and accept
it unless `offset > symbol.offset + symbol.size` (`uint64_t` addition).
Returns the resolved symbol (if any) and the possibly grown cache. -/
def ResolveSymbol (enum : Image → List SymbolEntry) (st : ResolverState)
    (pid address : Nat) : Option SymbolEntry × SymbolCache :=
  match FindImage st.pidToImages pid address with
  | none => (none, st.cache)
  | some (base, img) =>
    let r := GetImageSymbols enum st.cache img
    let offset := address - base
    let i := symUpperBound r.1 offset
    if i = 0 then (none, r.2)
    else
      match r.1.get? (i - 1) with
      | none => (none, r.2)
      | some s =>
        if (s.offset + s.size) % U64MOD < offset then (none, r.2)
        else (some s, r.2)

/-- The strict-upper-bound predecessor itself: the last symbol of the
(sorted) table whose offset does not exceed the target. -/
def symFindLE (tbl : List SymbolEntry) (offset : Nat) : Option SymbolEntry :=
  match tbl with
  | [] => none
  | s :: rest =>
    if offset < s.offset then none else some ((symFindLE rest offset).getD s)

/-- Symbol tables are sorted by offset ascending (duplicates permitted). -/
def SymbolsSorted (tbl : List SymbolEntry) : Prop :=
  List.Pairwise (fun s t => s.offset ≤ t.offset) tbl

instance (tbl : List SymbolEntry) : Decidable (SymbolsSorted tbl) := by
  unfold SymbolsSorted; infer_instance

/-- Every table already in the cache is sorted by offset. -/
def CacheSorted (c : SymbolCache) : Prop :=
  ∀ e ∈ c, SymbolsSorted e.2

instance (c : SymbolCache) : Decidable (CacheSorted c) := by
  unfold CacheSorted; infer_instance

lemma symUpperBound_eq_zero_iff_findLE_none {tbl : List SymbolEntry}
    {offset : Nat} :
    symUpperBound tbl offset = 0 ↔ symFindLE tbl offset = none := by
  cases tbl with
  | nil => simp [symUpperBound, symFindLE]
  | cons s rest =>
    by_cases h : offset < s.offset
    · simp [symUpperBound, symFindLE, h]
    · simp [symUpperBound, symFindLE, h]

lemma symGet_upperBound_pred {tbl : List SymbolEntry} {offset : Nat}
    (hne : symUpperBound tbl offset ≠ 0) :
    tbl.get? (symUpperBound tbl offset - 1) = symFindLE tbl offset := by
  induction tbl with
  | nil => simp [symUpperBound] at hne
  | cons s rest ih =>
    by_cases h : offset < s.offset
    · simp [symUpperBound, h] at hne
    · simp only [symUpperBound, if_neg h, symFindLE]
      by_cases hz : symUpperBound rest offset = 0
      · have hnone : symFindLE rest offset = none :=
          symUpperBound_eq_zero_iff_findLE_none.mp hz
        rw [hz, hnone]
        rfl
      · have := ih hz
        rw [show symUpperBound rest offset + 1 - 1
            = (symUpperBound rest offset - 1) + 1 from by omega]
        rw [List.get?_cons_succ, this]
        cases hrec : symFindLE rest offset with
        | none => exact absurd (symUpperBound_eq_zero_iff_findLE_none.mpr hrec) hz
        | some x => rfl

lemma symFindLE_char {tbl : List SymbolEntry} {offset : Nat} {s : SymbolEntry}
    (h : SymbolsSorted tbl) (hf : symFindLE tbl offset = some s) :
    s ∈ tbl ∧ s.offset ≤ offset ∧
      ∀ t ∈ tbl, t.offset ≤ offset → t.offset ≤ s.offset := by
  induction tbl generalizing s with
  | nil => cases hf
  | cons s0 rest ih =>
    rw [SymbolsSorted, List.pairwise_cons] at h
    by_cases hlt : offset < s0.offset
    · simp [symFindLE, hlt] at hf
    · simp only [symFindLE, if_neg hlt] at hf
      push_neg at hlt
      cases hrec : symFindLE rest offset with
      | none =>
        rw [hrec, Option.getD_none] at hf
        have hs : s0 = s := Option.some.inj hf
        subst hs
        refine ⟨List.mem_cons_self _ _, hlt, ?_⟩
        intro t ht hto
        rcases List.mem_cons.mp ht with heq | hmem
        · rw [heq]
        · exfalso
          cases rest with
          | nil => cases hmem
          | cons t0 r2 =>
            have : offset < t0.offset := by
              by_contra hc
              push_neg at hc
              simp [symFindLE, hc] at hrec
            have h2 : List.Pairwise (fun s t => s.offset ≤ t.offset)
                (t0 :: r2) := h.2
            rw [List.pairwise_cons] at h2
            rcases List.mem_cons.mp hmem with heq2 | hmem2
            · rw [heq2] at hto; omega
            · have := h2.1 t hmem2; omega
      | some x =>
        rw [hrec, Option.getD_some] at hf
        have hx : x = s := Option.some.inj hf
        subst hx
        have hr := ih h.2 hrec
        refine ⟨List.mem_cons_of_mem _ hr.1, hr.2.1, ?_⟩
        intro t ht hto
        rcases List.mem_cons.mp ht with heq | hmem
        · rw [heq]
          exact h.1 _ hr.1
        · exact hr.2.2 t hmem hto

lemma insertByOffset_mem {s t : SymbolEntry} {l : List SymbolEntry}
    (h : t ∈ insertByOffset s l) : t = s ∨ t ∈ l := by
  induction l with
  | nil =>
    simp only [insertByOffset, List.mem_singleton] at h
    exact Or.inl h
  | cons t0 rest ih =>
    by_cases hle : s.offset ≤ t0.offset
    · simp only [insertByOffset, if_pos hle, List.mem_cons] at h
      rcases h with h | h | h
      · exact Or.inl h
      · exact Or.inr (List.mem_cons.mpr (Or.inl h))
      · exact Or.inr (List.mem_cons.mpr (Or.inr h))
    · simp only [insertByOffset, if_neg hle, List.mem_cons] at h
      rcases h with h | h
      · exact Or.inr (List.mem_cons.mpr (Or.inl h))
      · rcases ih h with h' | h'
        · exact Or.inl h'
        · exact Or.inr (List.mem_cons.mpr (Or.inr h'))

lemma insertByOffset_sorted {s : SymbolEntry} {l : List SymbolEntry}
    (h : SymbolsSorted l) : SymbolsSorted (insertByOffset s l) := by
  induction l with
  | nil => simp [insertByOffset, SymbolsSorted]
  | cons t0 rest ih =>
    rw [SymbolsSorted, List.pairwise_cons] at h
    by_cases hle : s.offset ≤ t0.offset
    · rw [show insertByOffset s (t0 :: rest) = s :: t0 :: rest from by
        simp [insertByOffset, hle]]
      rw [SymbolsSorted, List.pairwise_cons]
      constructor
      · intro t ht
        rcases List.mem_cons.mp ht with heq | hmem
        · rw [heq]; exact hle
        · exact le_trans hle (h.1 t hmem)
      · rw [List.pairwise_cons]
        exact h
    · rw [show insertByOffset s (t0 :: rest) = t0 :: insertByOffset s rest
          from by simp [insertByOffset, hle]]
      rw [SymbolsSorted, List.pairwise_cons]
      constructor
      · intro t ht
        rcases insertByOffset_mem ht with heq | hmem
        · rw [heq]; omega
        · exact h.1 t hmem
      · exact ih h.2

lemma sortByOffset_sorted (l : List SymbolEntry) :
    SymbolsSorted (sortByOffset l) := by
  induction l with
  | nil => simp [sortByOffset, SymbolsSorted]
  | cons s rest ih => exact insertByOffset_sorted ih

lemma cacheFind_mem {c : SymbolCache} {img : Image} {tbl : List SymbolEntry}
    (h : cacheFind c img = some tbl) : (img, tbl) ∈ c := by
  induction c with
  | nil => cases h
  | cons hd tl ih =>
    obtain ⟨im, t⟩ := hd
    by_cases he : im = img
    · subst he
      simp only [cacheFind, if_pos rfl] at h
      rw [Option.some.inj h]
      exact List.mem_cons_self _ _
    · simp only [cacheFind, if_neg he] at h
      exact List.mem_cons_of_mem _ (ih h)

lemma GetImageSymbols_sorted {enum : Image → List SymbolEntry}
    {cache : SymbolCache} {img : Image} (hc : CacheSorted cache) :
    SymbolsSorted (GetImageSymbols enum cache img).1 := by
  rw [GetImageSymbols]
  cases hcf : cacheFind cache img with
  | none => exact sortByOffset_sorted _
  | some tbl => exact hc _ (cacheFind_mem hcf)

/-- C2: when the image `I` at base `B` contains address `a` for `pid`,
`ResolveSymbol` forms `offset = a - B`, selects the greatest-offset symbol
`S` with `S.offset ≤ offset` from the image's offset-sorted symbol table
(the strict-upper-bound predecessor), fails when no such symbol exists,
succeeds returning `S` iff `offset ≤ S.offset + S.size` (`uint64_t`
addition), and in particular at offset exactly `S.offset + S.size` still
returns `S` (closed upper bound). -/
theorem claim_C2_resolve_symbol_closed_upper_bound
    (enum : Image → List SymbolEntry) (st : ResolverState)
    (pid a B : Nat) (I : Image)
    (hfi : FindImage st.pidToImages pid a = some (B, I))
    (hc : CacheSorted st.cache) :
    ((∀ t ∈ (GetImageSymbols enum st.cache I).1, a - B < t.offset) →
        (ResolveSymbol enum st pid a).1 = none)
    ∧ (∀ s, symFindLE (GetImageSymbols enum st.cache I).1 (a - B) = some s →
        (s ∈ (GetImageSymbols enum st.cache I).1 ∧ s.offset ≤ a - B ∧
          ∀ t ∈ (GetImageSymbols enum st.cache I).1,
            t.offset ≤ a - B → t.offset ≤ s.offset)
        ∧ ((ResolveSymbol enum st pid a).1 = some s ↔
            a - B ≤ (s.offset + s.size) % U64MOD))
    ∧ (∀ s, symFindLE (GetImageSymbols enum st.cache I).1 (a - B) = some s →
        s.offset + s.size < U64MOD → a - B = s.offset + s.size →
        (ResolveSymbol enum st pid a).1 = some s) := by
  have hsorted : SymbolsSorted (GetImageSymbols enum st.cache I).1 :=
    GetImageSymbols_sorted hc
  have hbody : ResolveSymbol enum st pid a =
      (let r := GetImageSymbols enum st.cache I
       let offset := a - B
       let i := symUpperBound r.1 offset
       if i = 0 then (none, r.2)
       else
         match r.1.get? (i - 1) with
         | none => (none, r.2)
         | some s =>
           if (s.offset + s.size) % U64MOD < offset then (none, r.2)
           else (some s, r.2)) := by
    rw [ResolveSymbol, hfi]
  refine ⟨?_, ?_, ?_⟩
  · intro hall
    have hub : symUpperBound (GetImageSymbols enum st.cache I).1 (a - B) = 0 := by
      cases htbl : (GetImageSymbols enum st.cache I).1 with
      | nil => rfl
      | cons s rest =>
        have := hall s (by rw [htbl]; exact List.mem_cons_self _ _)
        simp [symUpperBound, this]
    rw [hbody]
    simp [hub]
  · intro s hf
    have hub : symUpperBound (GetImageSymbols enum st.cache I).1 (a - B) ≠ 0 := by
      intro hz
      rw [symUpperBound_eq_zero_iff_findLE_none.mp hz] at hf
      cases hf
    have hget := symGet_upperBound_pred hub
    rw [hf] at hget
    refine ⟨symFindLE_char hsorted hf, ?_⟩
    rw [hbody]
    simp only [if_neg hub, hget]
    by_cases hchk : (s.offset + s.size) % U64MOD < a - B
    · rw [if_pos hchk]
      constructor
      · intro hcontra; cases hcontra
      · intro hle; omega
    · rw [if_neg hchk]
      constructor
      · intro _; omega
      · intro _; rfl
  · intro s hf hnw heq
    have hub : symUpperBound (GetImageSymbols enum st.cache I).1 (a - B) ≠ 0 := by
      intro hz
      rw [symUpperBound_eq_zero_iff_findLE_none.mp hz] at hf
      cases hf
    have hget := symGet_upperBound_pred hub
    rw [hf] at hget
    rw [hbody]
    simp only [if_neg hub, hget]
    rw [if_neg (by rw [Nat.mod_eq_of_lt hnw]; omega)]

/-- Symbol fixtures for the C2 witness. -/
def symAlpha : SymbolEntry := ⟨[97], 0, 10⟩

def symBeta : SymbolEntry := ⟨[98], 100, 20⟩

/-- A programmable fake of the symbol-enumeration collaborator, returning
the symbols of `imageA` out of order (the resolver sorts them). -/
def testEnum : Image → List SymbolEntry :=
  fun img => if img = imageA then [symBeta, symAlpha] else []

/-- Resolver with the images of the unit-test scenario and an empty cache. -/
def testResolver : ResolverState := ⟨testState, []⟩

/-- Witness for C2: at address `10120` (offset `120 = 100 + 20` from base
`10000`, the closed upper bound of `symBeta`), the resolver still returns
`symBeta`, via the claim theorem. -/
theorem claim_C2_witness :
    (ResolveSymbol testEnum testResolver 42 10120).1 = some symBeta :=
  (claim_C2_resolve_symbol_closed_upper_bound testEnum testResolver 42 10120
      10000 imageA (by decide) (by decide)).2.2 symBeta
    (by decide) (by decide) (by decide)

/-! ### Value model and event envelope -/

/-- Modelled from the spec: the polymorphic value model (`event/value.h` is
not among the sources under verification). Scalar leaves carry their
concrete kind; narrow strings are `String`, wide strings are UTF-16
code-unit sequences; structs are ordered `(name, value)` sequences; arrays
are ordered homogeneous sequences. -/
inductive Value where
  | vUChar (v : Nat)
  | vUShort (v : Nat)
  | vUInt (v : Nat)
  | vULong (v : Nat)
  | vShort (v : Int)
  | vInt (v : Int)
  | vLong (v : Int)
  | vString (s : String)
  | vWString (s : List Nat)
  | vArray (elems : List Value)
  | vStruct (fields : List (String × Value))

/-- First-match field lookup in a struct's ordered field list. -/
def structGetField (fields : List (String × Value)) (name : String) :
    Option Value :=
  match fields with
  | [] => none
  | (n, v) :: rest => if n = name then some v else structGetField rest name

/-- `GetField` on a value: defined only on structs. -/
def Value.getField (v : Value) (name : String) : Option Value :=
  match v with
  | Value.vStruct fields => structGetField fields name
  | _ => none

/-- Modelled from the spec: the widening accessor `GetAsULong` /
`GetAsUInteger` succeeds exactly on (unsigned) integral kinds, widening to
u64, and fails otherwise (spec 3 and 4.1). -/
def Value.getAsULong (v : Value) : Option Nat :=
  match v with
  | Value.vUChar n => some n
  | Value.vUShort n => some n
  | Value.vUInt n => some n
  | Value.vULong n => some n
  | _ => none

/-- `GetFieldAsULong` / `GetFieldAsUInteger`: field lookup followed by the
widening integral accessor. -/
def Value.getFieldAsULong (v : Value) (name : String) : Option Nat :=
  (v.getField name).bind Value.getAsULong

/-- `GetFieldAsString`: field lookup, succeeding only on a narrow string. -/
def Value.getFieldAsString (v : Value) (name : String) : Option String :=
  (v.getField name).bind fun f =>
    match f with
    | Value.vString s => some s
    | _ => none

/-- `GetFieldAsWString`: field lookup, succeeding only on a wide string. -/
def Value.getFieldAsWString (v : Value) (name : String) : Option (List Nat) :=
  (v.getField name).bind fun f =>
    match f with
    | Value.vWString s => some s
    | _ => none

/-- `GetFieldAs<ArrayValue>`: field lookup, succeeding only on an array. -/
def Value.getFieldAsArray (v : Value) (name : String) : Option (List Value) :=
  (v.getField name).bind fun f =>
    match f with
    | Value.vArray elems => some elems
    | _ => none

/-- `event::Event`: a timestamp, a header value and a payload value
(`event/event.h`, as described by the spec's data model). -/
structure Event where
  timestamp : Nat
  header : Value
  payload : Value

/-- Well-known header field names (spec 3: header fields present on every
event). -/
def kOperationFieldName : String := "operation"

def kCategoryFieldName : String := "category"

def kProcessIdFieldName : String := "process_id"

/-! ### The state sink (`state/current_state.cc`) -/

/-- `CurrentState::OnImageLoad`: extract `ModuleSize`, `ImageCheckSum`,
`TimeDateStamp`, `ImageFileName`, `BaseAddress` from the payload and
`process_id` from the header; on success call `LoadImage`, otherwise log a
warning and leave the state untouched. -/
def OnImageLoad (ev : Event) (st : ResolverState) : ResolverState :=
  match ev.payload.getFieldAsULong "ModuleSize",
        ev.payload.getFieldAsULong "ImageCheckSum",
        ev.payload.getFieldAsULong "TimeDateStamp",
        ev.payload.getFieldAsWString "ImageFileName",
        ev.payload.getFieldAsULong "BaseAddress",
        ev.header.getFieldAsULong kProcessIdFieldName with
  | some size, some checksum, some timestamp, some filename, some base,
    some pid =>
    { st with pidToImages :=
        LoadImage st.pidToImages pid base ⟨size, checksum, timestamp, filename⟩ }
  | _, _, _, _, _, _ => st

/-- `CurrentState::OnImageUnload`: extract `BaseAddress` and `process_id`;
on success call `UnloadImage`, otherwise leave the state untouched. -/
def OnImageUnload (ev : Event) (st : ResolverState) : ResolverState :=
  match ev.payload.getFieldAsULong "BaseAddress",
        ev.header.getFieldAsULong kProcessIdFieldName with
  | some base, some pid =>
    { st with pidToImages := UnloadImage st.pidToImages pid base }
  | _, _ => st

/-- The stack-symbolization loop of `CurrentState::OnStackWalk`: resolve
each address, threading the growing symbol cache; an element that is not an
integral value aborts the loop (the C++ `return`), keeping the cache
mutations already made. The collected names are local to the function and
have no further observable effect. -/
def symbolizeStack (enum : Image → List SymbolEntry) (pti : PidToImages)
    (pid : Nat) (elems : List Value) (cache : SymbolCache) : SymbolCache :=
  match elems with
  | [] => cache
  | v :: rest =>
    match v.getAsULong with
    | none => cache
    | some addr =>
      symbolizeStack enum pti pid rest
        (ResolveSymbol enum ⟨pti, cache⟩ pid addr).2

/-- `CurrentState::OnStackWalk`: extract `EventTimeStamp`, `StackProcess`,
`StackThread` and the `Stack` array; resolve every address of the stack. -/
def OnStackWalk (enum : Image → List SymbolEntry) (ev : Event)
    (st : ResolverState) : ResolverState :=
  match ev.payload.getFieldAsULong "EventTimeStamp",
        ev.payload.getFieldAsULong "StackProcess",
        ev.payload.getFieldAsULong "StackThread",
        ev.payload.getFieldAsArray "Stack" with
  | some _, some pid, some _, some stack =>
    { st with cache := symbolizeStack enum st.pidToImages pid stack st.cache }
  | _, _, _, _ => st

/-- `CurrentState::OnEvent`: extract `category` and `operation` from the
header and dispatch; `Image/KernelBase` is an explicit `TODO` no-op, and
every unrecognized pair falls through without touching the state. -/
def OnEvent (enum : Image → List SymbolEntry) (ev : Event)
    (st : ResolverState) : ResolverState :=
  match ev.header.getFieldAsString kCategoryFieldName,
        ev.header.getFieldAsString kOperationFieldName with
  | some category, some operation =>
    if category = "Image" then
      if operation = "Load" ∨ operation = "DCStart" then OnImageLoad ev st
      else if operation = "Unload" then OnImageUnload ev st
      else if operation = "KernelBase" then st
      else st
    else if category = "StackWalk" ∧ operation = "Stack" then
      OnStackWalk enum ev st
    else st
  | _, _ => st

/-- C8: every event whose `(category, operation)` pair is not one of
`(Image, Load)`, `(Image, DCStart)`, `(Image, Unload)` or
`(StackWalk, Stack)` — including `(Image, KernelBase)` — leaves the image
map and symbol cache completely unchanged. -/
theorem claim_C8_unrecognized_pairs_leave_state_unchanged
    (enum : Image → List SymbolEntry) (ev : Event) (st : ResolverState)
    (c o : String)
    (hc : ev.header.getFieldAsString kCategoryFieldName = some c)
    (ho : ev.header.getFieldAsString kOperationFieldName = some o)
    (hnot : ¬ ((c = "Image" ∧ (o = "Load" ∨ o = "DCStart" ∨ o = "Unload")) ∨
               (c = "StackWalk" ∧ o = "Stack"))) :
    OnEvent enum ev st = st := by
  push_neg at hnot
  obtain ⟨h1, h2⟩ := hnot
  simp only [OnEvent, hc, ho]
  by_cases hci : c = "Image"
  · rw [if_pos hci]
    have hno := h1 hci
    push_neg at hno
    rw [if_neg (not_or.mpr ⟨hno.1, hno.2.1⟩), if_neg hno.2.2]
    by_cases hk : o = "KernelBase"
    · rw [if_pos hk]
    · rw [if_neg hk]
  · rw [if_neg hci]
    rw [if_neg (fun hand => (h2 hand.1) hand.2)]

/-- A concrete `Image/KernelBase` event (the explicit `TODO` branch). -/
def kernelBaseEvent : Event :=
  ⟨0,
   Value.vStruct [(kOperationFieldName, Value.vString "KernelBase"),
                  (kCategoryFieldName, Value.vString "Image"),
                  (kProcessIdFieldName, Value.vULong 4)],
   Value.vStruct [("BaseAddress", Value.vULong 65536)]⟩

/-- Witness for C8: processing an `Image/KernelBase` event leaves the
resolver state untouched, via the claim theorem. -/
theorem claim_C8_witness :
    OnEvent testEnum kernelBaseEvent testResolver = testResolver :=
  claim_C8_unrecognized_pairs_leave_state_unchanged testEnum kernelBaseEvent
    testResolver "Image" "KernelBase" (by decide) (by decide) (by decide)

/-- C5: an `Image/Load` or `Image/DCStart` event reaches `OnImageLoad`; when
the payload carries integral `ModuleSize`, `ImageCheckSum`, `TimeDateStamp`,
a wide-string `ImageFileName`, a u64-convertible `BaseAddress` and the
header an integral `process_id`, the sink calls `LoadImage` with exactly
those values; when any of the six extractions fails, the state is left
completely unchanged. -/
theorem claim_C5_image_load_extracts_exact_fields (ev : Event)
    (st : ResolverState) :
    (∀ size checksum timestamp filename base pid,
        ev.payload.getFieldAsULong "ModuleSize" = some size →
        ev.payload.getFieldAsULong "ImageCheckSum" = some checksum →
        ev.payload.getFieldAsULong "TimeDateStamp" = some timestamp →
        ev.payload.getFieldAsWString "ImageFileName" = some filename →
        ev.payload.getFieldAsULong "BaseAddress" = some base →
        ev.header.getFieldAsULong kProcessIdFieldName = some pid →
        OnImageLoad ev st =
          { st with pidToImages := LoadImage st.pidToImages pid base (Image.mk size checksum timestamp filename) })
    ∧ ((ev.payload.getFieldAsULong "ModuleSize" = none ∨
        ev.payload.getFieldAsULong "ImageCheckSum" = none ∨
        ev.payload.getFieldAsULong "TimeDateStamp" = none ∨
        ev.payload.getFieldAsWString "ImageFileName" = none ∨
        ev.payload.getFieldAsULong "BaseAddress" = none ∨
        ev.header.getFieldAsULong kProcessIdFieldName = none) →
        OnImageLoad ev st = st) := by
  constructor
  · intro size checksum timestamp filename base pid h1 h2 h3 h4 h5 h6
    simp only [OnImageLoad, h1, h2, h3, h4, h5, h6]
  · intro hfail
    rw [OnImageLoad]
    split
    · rcases hfail with h | h | h | h | h | h <;> simp_all
    · rfl

/-- A complete `Image/Load` event mirroring the unit-test fixtures. -/
def imageLoadEvent : Event :=
  ⟨0,
   Value.vStruct [(kOperationFieldName, Value.vString "Load"),
                  (kCategoryFieldName, Value.vString "Image"),
                  (kProcessIdFieldName, Value.vULong 42)],
   Value.vStruct [("BaseAddress", Value.vULong 10000),
                  ("ModuleSize", Value.vUInt 1000),
                  ("ImageCheckSum", Value.vUInt 12),
                  ("TimeDateStamp", Value.vUInt 34),
                  ("ImageFileName", Value.vWString imageA.filename)]⟩

/-- Witness for C5: the concrete load event inserts exactly `imageA` at
base 10000 for pid 42, via the claim theorem. -/
theorem claim_C5_witness :
    OnImageLoad imageLoadEvent ⟨[], []⟩ =
      { pidToImages := LoadImage [] 42 10000 ⟨1000, 12, 34, imageA.filename⟩,
        cache := [] } :=
  (claim_C5_image_load_extracts_exact_fields imageLoadEvent ⟨[], []⟩).1
    1000 12 34 imageA.filename 10000 42
    (by decide) (by decide) (by decide) (by decide) (by decide) (by decide)

/-! ### Byte decoder and the SID composite decoder -/

/-- Modelled from the spec: the byte-decoder cursor over `(bytes, position)`
(`parser/decoder.h` is not among the sources under verification; spec 4.2
fixes typed little-endian reads, a non-advancing `lookup` and a
`remaining_bytes` count, all failing rather than crossing end-of-buffer). -/
structure Decoder where
  bytes : List Nat
  position : Nat
  deriving Repr, DecidableEq

/-- `Decoder::RemainingBytes`: unread byte count. -/
def Decoder.remainingBytes (d : Decoder) : Nat :=
  d.bytes.length - d.position

/-- Modelled from the spec: read `n` raw bytes in order, advancing the
cursor; fails when the read would cross the end of the buffer. -/
def Decoder.readBytes (d : Decoder) (n : Nat) :
    Option (List Nat × Decoder) :=
  if d.position + n ≤ d.bytes.length then
    some ((d.bytes.drop d.position).take n, Decoder.mk d.bytes (d.position + n))
  else none

/-- Little-endian value of a byte sequence. -/
def leNat (l : List Nat) : Nat :=
  match l with
  | [] => 0
  | b :: rest => b + 256 * leNat rest

/-- Modelled from the spec: `Decode<UIntValue>`, a little-endian u32 read. -/
def Decoder.decodeUInt (d : Decoder) : Option (Nat × Decoder) :=
  (d.readBytes 4).map fun p => (leNat p.1, p.2)

/-- Modelled from the spec: `Decode<ULongValue>`, a little-endian u64 read. -/
def Decoder.decodeULong (d : Decoder) : Option (Nat × Decoder) :=
  (d.readBytes 8).map fun p => (leNat p.1, p.2)

/-- Modelled from the spec: `Decoder::Lookup(offset)` reads the byte at
`position + offset` without advancing. -/
def Decoder.lookup (d : Decoder) (off : Nat) : Nat :=
  d.bytes.getD (d.position + off) 0

/-- `DecodeUInteger` from `etw_raw_payload_decoder_utils.cc`: pointer-width
integer, u64 when 64-bit and u32 when 32-bit. -/
def decodeUInteger (is64 : Bool) (d : Decoder) : Option (Nat × Decoder) :=
  if is64 then d.decodeULong else d.decodeUInt

/-- `DecodeSID` from `etw_raw_payload_decoder_utils.cc`: precheck
`RemainingBytes() < 3 * 8`; decode the pointer-width `PSid` and the u32
`Attributes` into a fresh struct; consume (and discard) 4 bytes of padding
on 64-bit; peek byte 1 of the following body without advancing as the
sub-authority count; read `4 * count + 8` bytes as the `Sid` byte array;
finally append the struct to `fields` under `name` (so a failing decode
adds no field). -/
def DecodeSID (name : String) (is64 : Bool) (d : Decoder)
    (fields : List (String × Value)) :
    Option (List (String × Value) × Decoder) :=
  if d.remainingBytes < 3 * 8 then none
  else
    match decodeUInteger is64 d with
    | none => none
    | some (psid, d1) =>
      match d1.decodeUInt with
      | none => none
      | some (attrs, d2) =>
        match (if is64 then (d2.decodeUInt).map Prod.snd else some d2) with
        | none => none
        | some d3 =>
          let subAuthorityCount := d3.lookup 1
          let len := 4 * subAuthorityCount + 8
          match d3.readBytes len with
          | none => none
          | some (sidBytes, d4) =>
            some (fields ++ [(name, Value.vStruct
              [("PSid", if is64 then Value.vULong psid else Value.vUInt psid),
               ("Attributes", Value.vUInt attrs),
               ("Sid", Value.vArray (sidBytes.map Value.vUChar))])], d4)

lemma readBytes_eq {bytes : List Nat} {pos n q : Nat}
    (h : pos + n ≤ bytes.length) (hq : pos + n = q) :
    Decoder.readBytes (Decoder.mk bytes pos) n =
      some ((bytes.drop pos).take n, Decoder.mk bytes q) := by
  subst hq
  simp [Decoder.readBytes, h]

lemma decodeUInt_eq {bytes : List Nat} {pos q : Nat}
    (h : pos + 4 ≤ bytes.length) (hq : pos + 4 = q) :
    Decoder.decodeUInt (Decoder.mk bytes pos) =
      some (leNat ((bytes.drop pos).take 4), Decoder.mk bytes q) := by
  rw [Decoder.decodeUInt, readBytes_eq h hq]
  rfl

lemma decodeULong_eq {bytes : List Nat} {pos q : Nat}
    (h : pos + 8 ≤ bytes.length) (hq : pos + 8 = q) :
    Decoder.decodeULong (Decoder.mk bytes pos) =
      some (leNat ((bytes.drop pos).take 8), Decoder.mk bytes q) := by
  rw [Decoder.decodeULong, readBytes_eq h hq]
  rfl

/-- C4: the SID composite decoder fails, adding no field, when fewer than
`3 * 8` bytes remain; otherwise it reads a pointer-width `PSid` (u32 on
32-bit, u64 on 64-bit), a u32 `Attributes` word, exactly 4 further padding
bytes only when 64-bit, peeks byte 1 of the following body without
advancing as the sub-authority count `c`, and reads exactly `4 * c + 8`
bytes as the `Sid` array (given that many bytes are present). -/
theorem claim_C4_decode_sid_layout (bytes : List Nat) (pos : Nat)
    (name : String) (fields : List (String × Value)) :
    (∀ is64, Decoder.remainingBytes (Decoder.mk bytes pos) < 3 * 8 →
        DecodeSID name is64 (Decoder.mk bytes pos) fields = none)
    ∧ (3 * 8 ≤ Decoder.remainingBytes (Decoder.mk bytes pos) →
        4 * (bytes.getD (pos + 17) 0) + 8 ≤ bytes.length - (pos + 16) →
        DecodeSID name true (Decoder.mk bytes pos) fields =
          some (fields ++ [(name, Value.vStruct
            [("PSid", Value.vULong (leNat ((bytes.drop pos).take 8))),
             ("Attributes",
              Value.vUInt (leNat ((bytes.drop (pos + 8)).take 4))),
             ("Sid", Value.vArray
              (((bytes.drop (pos + 16)).take
                  (4 * (bytes.getD (pos + 17) 0) + 8)).map Value.vUChar))])],
            Decoder.mk bytes (pos + 16 + (4 * (bytes.getD (pos + 17) 0) + 8))))
    ∧ (3 * 8 ≤ Decoder.remainingBytes (Decoder.mk bytes pos) →
        4 * (bytes.getD (pos + 9) 0) + 8 ≤ bytes.length - (pos + 8) →
        DecodeSID name false (Decoder.mk bytes pos) fields =
          some (fields ++ [(name, Value.vStruct
            [("PSid", Value.vUInt (leNat ((bytes.drop pos).take 4))),
             ("Attributes",
              Value.vUInt (leNat ((bytes.drop (pos + 4)).take 4))),
             ("Sid", Value.vArray
              (((bytes.drop (pos + 8)).take
                  (4 * (bytes.getD (pos + 9) 0) + 8)).map Value.vUChar))])],
            Decoder.mk bytes (pos + 8 + (4 * (bytes.getD (pos + 9) 0) + 8)))) := by
  refine ⟨?_, ?_, ?_⟩
  · intro is64 hlt
    rw [DecodeSID, if_pos hlt]
  · intro hrem hlen
    rw [Decoder.remainingBytes] at hrem
    simp only at hrem
    have e1 := @decodeULong_eq bytes pos (pos + 8) (by omega) rfl
    have e2 := @decodeUInt_eq bytes (pos + 8) (pos + 12) (by omega) (by omega)
    have e3 := @decodeUInt_eq bytes (pos + 12) (pos + 16) (by omega) (by omega)
    have e4 : Decoder.readBytes (Decoder.mk bytes (pos + 16))
        (4 * (Decoder.lookup (Decoder.mk bytes (pos + 16)) 1) + 8) =
        some (((bytes.drop (pos + 16)).take
                 (4 * (bytes.getD (pos + 17) 0) + 8)),
              Decoder.mk bytes
                (pos + 16 + (4 * (bytes.getD (pos + 17) 0) + 8))) := by
      have hl : Decoder.lookup (Decoder.mk bytes (pos + 16)) 1
          = bytes.getD (pos + 17) 0 := by
        simp [Decoder.lookup]
      rw [hl]
      exact readBytes_eq (by omega) rfl
    rw [DecodeSID,
        if_neg (by rw [Decoder.remainingBytes]; simp only; omega)]
    simp [decodeUInteger, e1, e2, e3, e4]
  · intro hrem hlen
    rw [Decoder.remainingBytes] at hrem
    simp only at hrem
    have e1 := @decodeUInt_eq bytes pos (pos + 4) (by omega) rfl
    have e2 := @decodeUInt_eq bytes (pos + 4) (pos + 8) (by omega) (by omega)
    have e4 : Decoder.readBytes (Decoder.mk bytes (pos + 8))
        (4 * (Decoder.lookup (Decoder.mk bytes (pos + 8)) 1) + 8) =
        some (((bytes.drop (pos + 8)).take
                 (4 * (bytes.getD (pos + 9) 0) + 8)),
              Decoder.mk bytes
                (pos + 8 + (4 * (bytes.getD (pos + 9) 0) + 8))) := by
      have hl : Decoder.lookup (Decoder.mk bytes (pos + 8)) 1
          = bytes.getD (pos + 9) 0 := by
        simp [Decoder.lookup]
      rw [hl]
      exact readBytes_eq (by omega) rfl
    rw [DecodeSID,
        if_neg (by rw [Decoder.remainingBytes]; simp only; omega)]
    simp [decodeUInteger, e1, e2, e4]

/-- A concrete 64-bit SID blob: 8-byte `PSid`, 4-byte `Attributes`, 4 bytes
of padding, then a SID body with revision 1 and one sub-authority
(`4 * 1 + 8 = 12` bytes). -/
def sidTestBytes : List Nat :=
  [1, 2, 3, 4, 5, 6, 7, 8,
   0, 0, 0, 0,
   9, 9, 9, 9,
   1, 1, 0, 0, 0, 0, 0, 5, 16, 0, 0, 0]

/-- Witness for C4: decoding the concrete 64-bit SID consumes all 28 bytes
and appends exactly the `PSid` / `Attributes` / `Sid` struct, via the claim
theorem. -/
theorem claim_C4_witness :
    DecodeSID "UserSID" true (Decoder.mk sidTestBytes 0) [] =
      some ([("UserSID", Value.vStruct
        [("PSid", Value.vULong (leNat ((sidTestBytes.drop 0).take 8))),
         ("Attributes",
          Value.vUInt (leNat ((sidTestBytes.drop (0 + 8)).take 4))),
         ("Sid", Value.vArray
          (((sidTestBytes.drop (0 + 16)).take
              (4 * (sidTestBytes.getD (0 + 17) 0) + 8)).map Value.vUChar))])],
        Decoder.mk sidTestBytes (0 + 16 + (4 * (sidTestBytes.getD (0 + 17) 0) + 8))) := by
  have h := (claim_C4_decode_sid_layout sidTestBytes 0 "UserSID" []).2.1
    (by decide) (by decide)
  simpa using h

/-! ### Parser front-end (`parser/etw/etw_parser.cc`) -/

/-- Modelled from the spec: `base::WStringEndsWith` (`base/string_utils` is
not among the sources under verification) tests whether the path ends with
the given suffix. -/
def wstringEndsWith (s tail : List Nat) : Bool :=
  tail.isSuffixOf s

/-- The expected trace extension `.etl`, as UTF-16 code units. -/
def kEtlSuffix : List Nat := [46, 101, 116, 108]

/-- `ETWParser::AddTraceFile`: reject a second source (`traces_` already
holds one), reject a path not ending in `.etl`, otherwise register the
path. Returns the success flag and the new `traces_` list. -/
def AddTraceFile (traces : List (List Nat)) (path : List Nat) :
    Bool × List (List Nat) :=
  if traces ≠ [] then (false, traces)
  else if wstringEndsWith path kEtlSuffix = false then (false, traces)
  else (true, traces ++ [path])

/-- C6: `add_trace_source` fails on a second and later call and on a path
whose suffix is not `.etl`; on every failing call the registered sources
are unchanged; a first call with a correctly suffixed path succeeds and
registers exactly that path. -/
theorem claim_C6_add_trace_source (traces : List (List Nat))
    (path : List Nat) :
    (traces ≠ [] → AddTraceFile traces path = (false, traces))
    ∧ (wstringEndsWith path kEtlSuffix = false →
        AddTraceFile traces path = (false, traces))
    ∧ (traces = [] → wstringEndsWith path kEtlSuffix = true →
        AddTraceFile traces path = (true, traces ++ [path])) := by
  refine ⟨?_, ?_, ?_⟩
  · intro hne
    rw [AddTraceFile, if_pos hne]
  · intro hsuf
    by_cases hne : traces ≠ []
    · rw [AddTraceFile, if_pos hne]
    · rw [AddTraceFile, if_neg hne, if_pos hsuf]
  · intro hnil hsuf
    subst hnil
    rw [AddTraceFile, if_neg (by simp), if_neg (by rw [hsuf]; simp)]

/-- The path `trace.etl`, as UTF-16 code units. -/
def etlTestPath : List Nat := [116, 114, 97, 99, 101, 46, 101, 116, 108]

/-- Witness for C6: the first call with a correctly suffixed path succeeds,
via the claim theorem. -/
theorem claim_C6_witness :
    AddTraceFile [] etlTestPath = (true, [etlTestPath]) :=
  (claim_C6_add_trace_source [] etlTestPath).2.2 rfl (by decide)

/-- Provider GUID of the `PerfInfo` category. -/
def kPerfInfoProviderId : String := "CE1DBFB4-137E-4DA6-87B0-3F59AA102CBC"

/-- Modelled from the spec: the `(provider, opcode, version)` dispatch entry
of `DecodeRawETWKernelPayload` for `PerfInfo/DebuggerEnabled` (opcode 58,
version 2); `etw_raw_kernel_payload_decoder.cc` is not among the sources
under verification, and spec S6 fixes this event to decode to an empty
struct with category `PerfInfo` and operation `DebuggerEnabled`, on a null
payload buffer (`none`) as well as on a zero-length one (`some []`): an
empty struct consumes no payload bytes, so no read can fail. Returns
`(operation, category, fields)`. -/
def decodePerfInfoDebuggerEnabled (provider : String) (version opcode : Nat)
    (is64 : Bool) (payload : Option (List Nat)) :
    Option (String × String × Value) :=
  if provider = kPerfInfoProviderId ∧ opcode = 58 ∧ version = 2 then
    some ("DebuggerEnabled", "PerfInfo", Value.vStruct [])
  else none

/-- C9: decoding `PerfInfo/DebuggerEnabled` (opcode 58, version 2, 64-bit)
with an empty payload succeeds — for a null buffer as well as for a
non-null zero-length buffer — and yields category `PerfInfo`, operation
`DebuggerEnabled` and a struct with no fields. -/
theorem claim_C9_debugger_enabled_empty_payload :
    decodePerfInfoDebuggerEnabled kPerfInfoProviderId 2 58 true none
        = some ("DebuggerEnabled", "PerfInfo", Value.vStruct [])
    ∧ decodePerfInfoDebuggerEnabled kPerfInfoProviderId 2 58 true (some [])
        = some ("DebuggerEnabled", "PerfInfo", Value.vStruct []) := by
  constructor <;>
    exact if_pos ⟨rfl, rfl, rfl⟩

/-! ### Raw-timestamp baseline latch (`ETWParser::ProcessEvent`) -/

/-- The first-event raw-timestamp latch of `ETWParser::ProcessEvent`: the
stored `first_event_raw_ts_` is replaced by the incoming raw timestamp only
while it is still zero. -/
def latchFirstRawTs (firstRaw raw : Nat) : Nat :=
  if firstRaw = 0 then raw else firstRaw

/-- Stored baseline after a sequence of raw timestamps (the parser starts
`first_event_raw_ts_` at zero and resets it to zero after `Parse`). -/
def baselineAfter (rs : List Nat) : Nat :=
  rs.foldl latchFirstRawTs 0

/-- Baseline in effect when record `i`'s timestamp is converted: the latch
runs before the conversion of the same record. -/
def usedBaseline (rs : List Nat) (i : Nat) : Nat :=
  baselineAfter (rs.take (i + 1))

lemma foldl_latch_of_ne {s : Nat} (rs : List Nat) (h : s ≠ 0) :
    rs.foldl latchFirstRawTs s = s := by
  induction rs with
  | nil => rfl
  | cons r rest ih =>
    rw [List.foldl_cons, latchFirstRawTs, if_neg h]
    exact ih

/-- C10: the parser latches the raw baseline only while the stored value is
zero; hence the effective baseline is the first nonzero raw timestamp (or
zero), a first record with raw timestamp 0 is converted with baseline 0,
records before the first nonzero one do not move the baseline, and — as
the concrete trace `[0, 5]` shows — the baseline is not necessarily the
first record's raw timestamp. -/
theorem claim_C10_baseline_latched_on_first_nonzero :
    (∀ rs : List Nat,
        baselineAfter rs = (rs.filter (fun r => r ≠ 0)).headD 0)
    ∧ (∀ rest : List Nat, usedBaseline (0 :: rest) 0 = 0)
    ∧ (∀ rs : List Nat, baselineAfter (0 :: rs) = baselineAfter rs)
    ∧ (usedBaseline [0, 5] 0 = 0 ∧ baselineAfter [0, 5] = 5 ∧
        ([0, 5] : List Nat).headD 0 = 0) := by
  have hmain : ∀ rs : List Nat,
      baselineAfter rs = (rs.filter (fun r => r ≠ 0)).headD 0 := by
    intro rs
    induction rs with
    | nil => rfl
    | cons r rest ih =>
      by_cases hr : r = 0
      · subst hr
        rw [show baselineAfter (0 :: rest) = baselineAfter rest from rfl, ih]
        simp
      · rw [show baselineAfter (r :: rest)
            = rest.foldl latchFirstRawTs r from by
          rw [baselineAfter, List.foldl_cons, latchFirstRawTs, if_pos rfl]]
        rw [foldl_latch_of_ne rest hr]
        simp [hr]
  refine ⟨hmain, ?_, ?_, by decide⟩
  · intro rest
    rfl
  · intro rs
    rfl
